import Mathlib

/-!
Verification of the PL/SQL structural block segmenter
(`plsql_parsing_agent_Version3.py`, duplicated in
`streamlit_plsql_to_pyspark_Version13.py`).

Strings are modelled as `List Char`.  Python string primitives
(`strip`, `upper`, `split`, `splitlines`, the `re` patterns actually used)
are embedded directly; the fallible classifier is modelled with `Option`.
All definitions are structural recursions (fuelled where the source scans
by variable strides) so that concrete inputs evaluate by `decide`.
-/

namespace PlsqlSeg

/-- The whitespace characters of Python's `str.strip` (ASCII fragment). -/
def pyIsSpace (c : Char) : Bool :=
  c == ' ' || c == '\t' || c == '\n' || c == '\r' || c == '\x0b' || c == '\x0c'

/-- ASCII uppercasing, per character, modelling Python's `str.upper`. -/
def pyToUpper (c : Char) : Char :=
  if 'a' ≤ c ∧ c ≤ 'z' then Char.ofNat (c.toNat - 32) else c

/-- Python `str.lstrip()`. -/
def pyStripLeft (cs : List Char) : List Char := cs.dropWhile pyIsSpace

/-- Python `str.rstrip()`. -/
def pyStripRight (cs : List Char) : List Char :=
  (cs.reverse.dropWhile pyIsSpace).reverse

/-- Python `str.strip()`. -/
def pyStrip (cs : List Char) : List Char := pyStripLeft (pyStripRight cs)

/-- Python `str.split(sep)` for a one-character separator. -/
def splitOnChar (sep : Char) : List Char → List (List Char)
  | [] => [[]]
  | c :: t =>
    if c = sep then [] :: splitOnChar sep t
    else
      match splitOnChar sep t with
      | [] => [[c]]
      | l :: ls => (c :: l) :: ls

/-- Python `str.splitlines()` restricted to the line boundaries
`\n`, `\r\n` and `\r` (the pipeline normalizes `\r` away up front). -/
def pySplitlines : List Char → List (List Char)
  | [] => []
  | '\n' :: t => [] :: pySplitlines t
  | '\r' :: '\n' :: t => [] :: pySplitlines t
  | '\r' :: t => [] :: pySplitlines t
  | c :: t =>
    match pySplitlines t with
    | [] => [[c]]
    | l :: ls => (c :: l) :: ls

/-- Python `'\n'.join(xs)`. -/
def joinNL (xs : List (List Char)) : List Char := List.intercalate ['\n'] xs

/-- Total length of a list of fragments, as summed by the merge pass. -/
def sumLens (xs : List (List Char)) : Nat := (xs.map List.length).sum

/-- `.replace('\r\n', '\n').replace('\r', '\n')` at the top of
`_regex_chunk_blocks`. -/
def normalizeNewlines : List Char → List Char
  | [] => []
  | '\r' :: '\n' :: t => '\n' :: normalizeNewlines t
  | '\r' :: t => '\n' :: normalizeNewlines t
  | c :: t => c :: normalizeNewlines t

/-! ## The extraction regex

`_regex_chunk_blocks` matches, with `re.IGNORECASE` and `re.findall`,

`(CREATE\s+(OR\s+REPLACE\s+)?(FUNCTION|PROCEDURE|PACKAGE|TRIGGER)[\s\S]*?END\s*;)
 | (DECLARE[\s\S]*?END\s*;) | (BEGIN[\s\S]*?END\s*;) | ([^;]+;)`

Each matcher below returns the number of characters consumed
(`none` on failure), implementing the backtracking behaviour of the
pattern: alternatives tried left to right, `\s+` greedy (always followed
by a non-space literal, so greediness is deterministic here), and the
lazy `[\s\S]*?END\s*;` stopping at the earliest `END\s*;`. -/

/-- Case-insensitive literal match; the pattern is given uppercased. -/
def matchCI : List Char → List Char → Option Nat
  | [], _ => some 0
  | _ :: _, [] => none
  | p :: ps, c :: t =>
    if pyToUpper c = p then (matchCI ps t).map (· + 1) else none

/-- `\s+` (greedy one-or-more whitespace). -/
def wsPlus (cs : List Char) : Option Nat :=
  let n := (cs.takeWhile pyIsSpace).length
  if n = 0 then none else some n

/-- `END\s*;` at the current position. -/
def matchEndSemi (cs : List Char) : Option Nat :=
  match matchCI ("END".toList) cs with
  | none => none
  | some a =>
    match cs.drop (a + ((cs.drop a).takeWhile pyIsSpace).length) with
    | ';' :: _ => some (a + ((cs.drop a).takeWhile pyIsSpace).length + 1)
    | _ => none

/-- The lazy `[\s\S]*?END\s*;`: scan forward to the earliest `END\s*;`. -/
def lazyEnd : List Char → Option Nat
  | [] => none
  | c :: t =>
    match matchEndSemi (c :: t) with
    | some n => some n
    | none => (lazyEnd t).map (· + 1)

/-- `FUNCTION|PROCEDURE|PACKAGE|TRIGGER` (alternatives tried in order). -/
def kwAlt (cs : List Char) : Option Nat :=
  match matchCI ("FUNCTION".toList) cs with
  | some k => some k
  | none =>
    match matchCI ("PROCEDURE".toList) cs with
    | some k => some k
    | none =>
      match matchCI ("PACKAGE".toList) cs with
      | some k => some k
      | none => matchCI ("TRIGGER".toList) cs

/-- `(FUNCTION|PROCEDURE|PACKAGE|TRIGGER)[\s\S]*?END\s*;`. -/
def kwEnd (cs : List Char) : Option Nat :=
  match kwAlt cs with
  | none => none
  | some k =>
    match lazyEnd (cs.drop k) with
    | none => none
    | some e => some (k + e)

/-- `OR\s+REPLACE\s+`. -/
def orReplace (cs : List Char) : Option Nat :=
  match matchCI ("OR".toList) cs with
  | none => none
  | some a =>
    match wsPlus (cs.drop a) with
    | none => none
    | some b =>
      match matchCI ("REPLACE".toList) (cs.drop (a + b)) with
      | none => none
      | some c =>
        match wsPlus (cs.drop (a + b + c)) with
        | none => none
        | some d => some (a + b + c + d)

/-- The optional group followed by the keyword tail:
`OR\s+REPLACE\s+` then `(FUNCTION|...)[\s\S]*?END\s*;`. -/
def orReplaceKwEnd (rest : List Char) : Option Nat :=
  match orReplace rest with
  | none => none
  | some g =>
    match kwEnd (rest.drop g) with
    | none => none
    | some k => some (g + k)

/-- First alternative:
`CREATE\s+(OR\s+REPLACE\s+)?(FUNCTION|...|TRIGGER)[\s\S]*?END\s*;`,
with the optional group backtracked when the rest fails after it. -/
def matchCreate (cs : List Char) : Option Nat :=
  match matchCI ("CREATE".toList) cs with
  | none => none
  | some a =>
    match wsPlus (cs.drop a) with
    | none => none
    | some b =>
      match orReplaceKwEnd (cs.drop (a + b)) with
      | some n => some (a + b + n)
      | none =>
        match kwEnd (cs.drop (a + b)) with
        | some k => some (a + b + k)
        | none => none

/-- Second alternative: `DECLARE[\s\S]*?END\s*;`. -/
def matchDeclare (cs : List Char) : Option Nat :=
  match matchCI ("DECLARE".toList) cs with
  | none => none
  | some a =>
    match lazyEnd (cs.drop a) with
    | none => none
    | some e => some (a + e)

/-- Third alternative: `BEGIN[\s\S]*?END\s*;`. -/
def matchBeginBlock (cs : List Char) : Option Nat :=
  match matchCI ("BEGIN".toList) cs with
  | none => none
  | some a =>
    match lazyEnd (cs.drop a) with
    | none => none
    | some e => some (a + e)

/-- Fallback alternative: `[^;]+;`. -/
def matchFallback (cs : List Char) : Option Nat :=
  match (cs.takeWhile (fun c => !(c == ';'))).length with
  | 0 => none
  | n + 1 =>
    match cs.drop (n + 1) with
    | ';' :: _ => some (n + 2)
    | _ => none

/-- One attempt of the whole alternation at the current position
(alternatives in the pattern's order). -/
def matchAt (cs : List Char) : Option Nat :=
  match matchCreate cs with
  | some n => some n
  | none =>
    match matchDeclare cs with
    | some n => some n
    | none =>
      match matchBeginBlock cs with
      | some n => some n
      | none => matchFallback cs

/-- `re.findall` of the block pattern: scan left to right, emitting each
match and stepping one character past failures.  Fuelled by the input
length (every step consumes at least one character). -/
def findallGo : Nat → List Char → List (List Char)
  | 0, _ => []
  | _, [] => []
  | fuel + 1, c :: t =>
    match matchAt (c :: t) with
    | some n => (c :: t).take n :: findallGo fuel ((c :: t).drop n)
    | none => findallGo fuel t

/-- `block_re.findall(code)`. -/
def findall (cs : List Char) : List (List Char) := findallGo cs.length cs

/-- `_regex_chunk_blocks`: normalize newlines, find all block matches,
strip each, and drop empty results and a bare `/`. -/
def _regex_chunk_blocks (plsql_code : List Char) : List (List Char) :=
  let code := normalizeNewlines plsql_code
  (findall code).filterMap (fun block =>
    if pyStrip block = [] ∨ pyStrip block = ['/'] then none
    else some (pyStrip block))

/-! ## The statement decomposer `_ast_chunk_blocks` -/

/-- State of the statement splitter of the external `sqlparse` library
(`sqlparse.engine.StatementSplitter`): parenthesis/block nesting level,
`BEGIN` depth, and whether the statement started with a `CREATE` DDL
keyword. -/
structure SplitState where
  level : Int
  beginDepth : Nat
  isCreate : Bool

/-- Initial splitter state (reset at each statement boundary). -/
def initSplitState : SplitState := ⟨0, 0, false⟩

/-- Word characters for the rough keyword tokenizer. -/
def isWordChar (c : Char) : Bool := c.isAlphanum || c == '_'

/-- The `_change_splitlevel` keyword logic of `sqlparse`'s statement
splitter: `CREATE` marks a DDL statement; `BEGIN` opens a block (raising
the split level only inside a `CREATE`); `END` closes one; `DECLARE` and
loop keywords raise the level inside a `CREATE`. -/
def sqlKeywordEffect (w : List Char) (st : SplitState) : SplitState :=
  let u := w.map pyToUpper
  if u = "CREATE".toList then { st with isCreate := true }
  else if u = "DECLARE".toList then
    if st.isCreate ∧ st.beginDepth = 0 then { st with level := st.level + 1 } else st
  else if u = "BEGIN".toList then
    { st with beginDepth := st.beginDepth + 1,
              level := if st.isCreate then st.level + 1 else st.level }
  else if u = "END".toList then
    { st with beginDepth := st.beginDepth - 1, level := st.level - 1 }
  else if u = "IF".toList ∨ u = "FOR".toList ∨ u = "WHILE".toList ∨ u = "CASE".toList then
    if st.isCreate ∧ 0 < st.beginDepth then { st with level := st.level + 1 } else st
  else st

/-- Fuelled scan modelling `sqlparse.parse`: accumulate characters into
the current statement (kept reversed), splitting after each `;` whose
split level is at most zero.  String/comment lexing is not modelled (the
pipeline inputs exercised here contain neither). -/
def sqlparseGo : Nat → List Char → List Char → SplitState → List (List Char)
  | 0, rest, cur, _ => if (cur.reverse ++ rest).isEmpty then [] else [cur.reverse ++ rest]
  | _ + 1, [], cur, _ => if cur.isEmpty then [] else [cur.reverse]
  | fuel + 1, c :: t, cur, st =>
    if isWordChar c then
      let w := (c :: t).takeWhile isWordChar
      let rest := (c :: t).dropWhile isWordChar
      sqlparseGo fuel rest (w.reverse ++ cur) (sqlKeywordEffect w st)
    else if c = '(' then sqlparseGo fuel t (c :: cur) { st with level := st.level + 1 }
    else if c = ')' then sqlparseGo fuel t (c :: cur) { st with level := st.level - 1 }
    else if c = ';' then
      if st.level ≤ 0 then (cur.reverse ++ [';']) :: sqlparseGo fuel t [] initSplitState
      else sqlparseGo fuel t (c :: cur) st
    else sqlparseGo fuel t (c :: cur) st

/-- `sqlparse.parse` (as a list of statement texts, see `sqlparseGo`). -/
def sqlparse_parse (cs : List Char) : List (List Char) :=
  sqlparseGo cs.length cs [] initSplitState

/-- Does `BEGIN` start (case-insensitively) at this position?  This is
the look-ahead of `re.split(r'(?i)(?=BEGIN)', ...)`. -/
def beginHere (cs : List Char) : Bool :=
  (cs.take 5).map pyToUpper = "BEGIN".toList

/-- Worker for `beginSplit`: `acc` is the current piece, reversed. -/
def beginSplitGo : List Char → List Char → List (List Char)
  | [], acc => [acc.reverse]
  | c :: t, acc =>
    if beginHere (c :: t) then acc.reverse :: beginSplitGo t [c]
    else beginSplitGo t (c :: acc)

/-- `re.split(r'(?i)(?=BEGIN)', stmt_str)`: cut before every occurrence
of `BEGIN`, keeping the keyword with the piece it introduces. -/
def beginSplit (cs : List Char) : List (List Char) := beginSplitGo cs []

/-- The number of positions at which `BEGIN` starts. -/
def countBeginPoints : List Char → Nat
  | [] => 0
  | c :: t => (if beginHere (c :: t) then 1 else 0) + countBeginPoints t

/-- Is this line blank or a `--` comment (after stripping)?  Used by the
comment filters of `_ast_chunk_blocks` and `split_plsql_into_blocks`. -/
def isCommentLine (l : List Char) : Bool :=
  ("--".toList.isPrefixOf (pyStrip l)) || (pyStrip l).isEmpty

/-- The block filter `b.strip() and not all(l.strip().startswith('--')
or not l.strip() for l in b.split('\n'))`. -/
def keepBlock (b : List Char) : Bool :=
  !(pyStrip b).isEmpty && !((splitOnChar '\n' b).all isCommentLine)

/-- The statement-bucketing loop of `_ast_chunk_blocks` (lines 38-52 of
the source): walk `ib.split(';')`, skip blank parts, append `part + ';'`
to the buffer, and flush `'\n'.join(temp).strip()` once the running
length (`len(part) + 1` per part) exceeds the budget. -/
def astBucketGo (max_chunk_size : Nat) :
    List (List Char) → List (List Char) → Nat → List (List Char)
  | [], temp, _ => if temp.isEmpty then [] else [pyStrip (joinNL temp)]
  | part :: rest, temp, temp_len =>
    if (pyStrip part).isEmpty then astBucketGo max_chunk_size rest temp temp_len
    else
      let temp' := temp ++ [part ++ [';']]
      let temp_len' := temp_len + part.length + 1
      if max_chunk_size < temp_len' then
        pyStrip (joinNL temp') :: astBucketGo max_chunk_size rest [] 0
      else astBucketGo max_chunk_size rest temp' temp_len'

/-- `_ast_chunk_blocks`: parse into statements; an oversized statement is
split before each inner `BEGIN`; still-oversized pieces are bucketed at
statement level; blank and comment-only results are dropped. -/
def _ast_chunk_blocks (plsql_code : List Char) (max_chunk_size : Nat) : List (List Char) :=
  let statements := sqlparse_parse plsql_code
  let blocks := statements.flatMap (fun stmt =>
    let stmt_str := pyStrip stmt
    if stmt_str.isEmpty then []
    else if max_chunk_size < stmt_str.length then
      (beginSplit stmt_str).flatMap (fun ib0 =>
        let ib := pyStrip ib0
        if ib.isEmpty then []
        else if max_chunk_size < ib.length then
          astBucketGo max_chunk_size (splitOnChar ';' ib) [] 0
        else [ib])
    else [stmt_str])
  blocks.filter keepBlock

/-! ## `split_plsql_into_blocks` -/

/-- Does `block.upper()` start with `CREATE`, `DECLARE` or `BEGIN`? -/
def startsCompound (block : List Char) : Bool :=
  let up := block.map pyToUpper
  ("CREATE".toList.isPrefixOf up) || ("DECLARE".toList.isPrefixOf up) ||
    ("BEGIN".toList.isPrefixOf up)

/-- The dispatch loop (lines 68-74): a unit longer than the budget, or
starting with a compound keyword, goes through `_ast_chunk_blocks`;
otherwise it is forwarded unchanged. -/
def dispatchLoop (blocks : List (List Char)) (max_chunk_size : Nat) : List (List Char) :=
  blocks.foldl (fun all_blocks block =>
    if max_chunk_size < block.length ∨ startsCompound block then
      all_blocks ++ _ast_chunk_blocks block max_chunk_size
    else all_blocks ++ [block]) []

/-- The merge pass (lines 75-91): buffer fragments under 180 characters,
flushing the joined buffer when its total length exceeds 300; a fragment
of 180 or more flushes the buffer and is emitted alone. -/
def mergeGo : List (List Char) → List (List Char) → List (List Char)
  | [], temp => if temp.isEmpty then [] else [joinNL temp]
  | b :: rest, temp =>
    if (pyStrip b).isEmpty then mergeGo rest temp
    else if b.length < 180 then
      let temp' := temp ++ [b]
      if 300 < sumLens temp' then joinNL temp' :: mergeGo rest []
      else mergeGo rest temp'
    else
      (if temp.isEmpty then [] else [joinNL temp]) ++ (b :: mergeGo rest [])

/-- One step of the merge pass on the abstract state
(finished groups of fragments, current buffer). -/
def mergeStep (s : List (List (List Char)) × List (List Char)) (b : List Char) :
    List (List (List Char)) × List (List Char) :=
  if (pyStrip b).isEmpty then s
  else if b.length < 180 then
    let temp := s.2 ++ [b]
    if 300 < sumLens temp then (s.1 ++ [temp], []) else (s.1, temp)
  else
    ((s.1 ++ (if s.2.isEmpty then [] else [s.2])) ++ [[b]], [])

/-- The merge pass viewed as a grouping of its input fragments: each
output block of `mergeGo` is the `'\n'`-join of one group. -/
def mergeGroups (frags : List (List Char)) : List (List (List Char)) :=
  (List.foldl mergeStep ([], []) frags).1
    ++ (if (List.foldl mergeStep ([], []) frags).2 = [] then []
        else [(List.foldl mergeStep ([], []) frags).2])

/-- The merge-buffer contents after processing a fragment list. -/
def mergeTemp (frags : List (List Char)) : List (List Char) :=
  (List.foldl mergeStep ([], []) frags).2

/-- `[s+';' for s in b.split(';') if s.strip()]` (line 95). -/
def semiStmts (b : List Char) : List (List Char) :=
  (splitOnChar ';' b).filterMap (fun s =>
    if (pyStrip s).isEmpty then none else some (s ++ [';']))

/-- The re-split bucketing loop (lines 96-106): accumulate statements
into `buff`, flushing `'\n'.join(buff)` once the running length exceeds
the budget; the final partial buffer is flushed at the end. -/
def resplitGo (max_chunk_size : Nat) :
    List (List Char) → List (List Char) → Nat → List (List Char)
  | [], buff, _ => if buff.isEmpty then [] else [joinNL buff]
  | stmt :: rest, buff, buff_len =>
    let buff' := buff ++ [stmt]
    let buff_len' := buff_len + stmt.length
    if max_chunk_size < buff_len' then
      joinNL buff' :: resplitGo max_chunk_size rest [] 0
    else resplitGo max_chunk_size rest buff' buff_len'

/-- The re-split pass (lines 92-108): blocks within budget pass through;
oversized blocks are re-bucketed at statement boundaries. -/
def resplitStage (bs : List (List Char)) (max_chunk_size : Nat) : List (List Char) :=
  bs.flatMap (fun b =>
    if max_chunk_size < b.length then resplitGo max_chunk_size (semiStmts b) [] 0
    else [b])

/-- `split_plsql_into_blocks`: extract, dispatch oversized/compound units
to the decomposer, merge small fragments, re-split oversized blocks, and
drop blank or comment-only blocks. -/
def split_plsql_into_blocks (plsql_code : List Char) (max_chunk_size : Nat) :
    List (List Char) :=
  let regex_blocks := _regex_chunk_blocks plsql_code
  let all_blocks := dispatchLoop regex_blocks max_chunk_size
  let cleaned_blocks := mergeGo all_blocks []
  let final_blocks := resplitStage cleaned_blocks max_chunk_size
  final_blocks.filter keepBlock

/-! ## The classifier `get_block_type` -/

/-- The keyword-priority classification of an (uppercased) header line. -/
def classifyHeader (header : List Char) : List Char :=
  if "CREATE OR REPLACE FUNCTION".toList.isPrefixOf header then "FUNCTION".toList
  else if "CREATE OR REPLACE PROCEDURE".toList.isPrefixOf header then "PROCEDURE".toList
  else if "CREATE OR REPLACE PACKAGE".toList.isPrefixOf header then "PACKAGE".toList
  else if "CREATE OR REPLACE TRIGGER".toList.isPrefixOf header then "TRIGGER".toList
  else if "DECLARE".toList.isPrefixOf header then "ANONYMOUS BLOCK".toList
  else if "BEGIN".toList.isPrefixOf header then "ANONYMOUS BLOCK".toList
  else if "UPDATE".toList.isPrefixOf header then "UPDATE".toList
  else if "INSERT".toList.isPrefixOf header then "INSERT".toList
  else if "DELETE".toList.isPrefixOf header then "DELETE".toList
  else if "SELECT".toList.isPrefixOf header then "SELECT".toList
  else "OTHER".toList

/-- `get_block_type`: `block.strip().splitlines()[0].upper()` classified
by leading phrase.  The indexing `[0]` raises `IndexError` on a blank
block, modelled by `none`. -/
def get_block_type (block : List Char) : Option (List Char) :=
  match pySplitlines (pyStrip block) with
  | [] => none
  | header :: _ => some (classifyHeader (header.map pyToUpper))

/-- The first line of a block whose strip is non-empty, if any. -/
def firstNonBlankLine (b : List Char) : Option (List Char) :=
  (pySplitlines b).find? (fun l => !(pyStrip l).isEmpty)

/-! ## Concrete inputs for counterexamples and witnesses -/

/-- Counterexample input for the soft-budget claim. -/
def c1input : List Char := "aaaa;bbbb;".toList

/-- The single block the pipeline produces from `c1input` at budget 10. -/
def c1block : List Char := "aaaa;\n\nbbbb;".toList

/-- First fragment of the merge counterexample: 149 `x`s and a `;`. -/
def c4u1 : List Char := List.replicate 149 'x' ++ [';']

/-- Second fragment: 159 `y`s and a `;` (length 160, under 180). -/
def c4u2 : List Char := List.replicate 159 'y' ++ [';']

/-- Third fragment: `zz;` (length 3, under 180). -/
def c4u3 : List Char := "zz;".toList

/-- Merge counterexample input: the three fragments in sequence. -/
def c4input : List Char := c4u1 ++ c4u2 ++ c4u3

/-- Stray-separator counterexample input: a lone `/` between two units. -/
def c5sep : List Char := "a;\n/\nb;".toList

/-- Example 2 of the spec: a procedure followed by a lone `/`. -/
def c5input : List Char :=
  "CREATE OR REPLACE PROCEDURE p IS BEGIN NULL; END;\n/".toList

/-- The procedure text of `c5input` without the trailing separator. -/
def c5proc : List Char :=
  "CREATE OR REPLACE PROCEDURE p IS BEGIN NULL; END;".toList

/-- The ten classifier tags, as the source spells them. -/
def allTags : List (List Char) :=
  ["FUNCTION".toList, "PROCEDURE".toList, "PACKAGE".toList, "TRIGGER".toList,
   "ANONYMOUS BLOCK".toList, "UPDATE".toList, "INSERT".toList, "DELETE".toList,
   "SELECT".toList, "OTHER".toList]

/-- Characters that whitespace normalization and the `;`-separator
discipline may not account for: neither whitespace nor `;`. -/
def interesting (cs : List Char) : List Char :=
  cs.filter (fun c => !(pyIsSpace c) && !(c == ';'))

/-- The prefix of the input up to and including its last `;`
(empty if the input has no `;`). -/
def upToLastSemi (cs : List Char) : List Char :=
  (cs.reverse.dropWhile (fun c => !(c == ';'))).reverse

/-- Position `n` is just past a `;` of `cs` (the shape of every number
of characters consumed by a successful regex match). -/
def EndsSemi (cs : List Char) (n : Nat) : Prop :=
  ∃ k rest, n = k + 1 ∧ cs.drop k = ';' :: rest

/-- A character that does not end a line (used to characterize the first
line produced by `pySplitlines`). -/
def nbChar (c : Char) : Bool := !(c == '\n') && !(c == '\r')

/-! ## Generic helper lemmas -/

theorem sumLens_append (l₁ l₂ : List (List Char)) :
    sumLens (l₁ ++ l₂) = sumLens l₁ + sumLens l₂ := by
  simp [sumLens]

theorem sumLens_dropLast_le (l : List (List Char)) :
    sumLens l.dropLast ≤ sumLens l := by
  rcases eq_or_ne l [] with h | h
  · simp [h]
  · conv_rhs => rw [← List.dropLast_append_getLast h]
    rw [sumLens_append]
    exact Nat.le_add_right _ _

/-! ## C9: no empty or comment-only output -/

/-- C9: every final block has non-blank strip and contains a line that is
neither blank nor a `--` comment (the final filter enforces exactly this). -/
theorem no_empty_or_comment_only (cs : List Char) (max : Nat) (b : List Char)
    (hb : b ∈ split_plsql_into_blocks cs max) :
    pyStrip b ≠ [] ∧
      ∃ l ∈ splitOnChar '\n' b, pyStrip l ≠ [] ∧
        ¬("--".toList.isPrefixOf (pyStrip l) = true) := by
  unfold split_plsql_into_blocks at hb
  have h := List.of_mem_filter hb
  unfold keepBlock at h
  rw [Bool.and_eq_true] at h
  obtain ⟨h1, h2⟩ := h
  constructor
  · intro hnil
    rw [Bool.not_eq_true'] at h1
    rw [hnil] at h1
    simp at h1
  · rw [Bool.not_eq_true'] at h2
    rcases List.all_eq_false.mp h2 with ⟨l, hl, hline⟩
    refine ⟨l, hl, ?_, ?_⟩
    · intro hnil
      unfold isCommentLine at hline
      rw [hnil] at hline
      simp at hline
    · intro hpre
      unfold isCommentLine at hline
      rw [hpre] at hline
      simp at hline

/-- Witness for C9 at a concrete input. -/
theorem no_empty_or_comment_only_witness :
    ("a;".toList ∈ split_plsql_into_blocks ("a;".toList) 1200) ∧
      (pyStrip ("a;".toList) ≠ [] ∧
        ∃ l ∈ splitOnChar '\n' ("a;".toList), pyStrip l ≠ [] ∧
          ¬("--".toList.isPrefixOf (pyStrip l) = true)) :=
  ⟨by decide, no_empty_or_comment_only ("a;".toList) 1200 ("a;".toList) (by decide)⟩

/-! ## C6: decomposer dispatch condition -/

/-- C6: the dispatch loop hands a unit to `_ast_chunk_blocks` exactly when
it exceeds the budget or starts (uppercased) with `CREATE`, `DECLARE` or
`BEGIN`; all other units are forwarded unchanged. -/
theorem dispatch_condition (max : Nat) : ∀ (blocks : List (List Char)),
    dispatchLoop blocks max = blocks.flatMap (fun block =>
      if max < block.length ∨ startsCompound block then
        _ast_chunk_blocks block max
      else [block]) := by
  have key : ∀ (blocks init : List (List Char)),
      List.foldl (fun all_blocks block =>
        if max < block.length ∨ startsCompound block then
          all_blocks ++ _ast_chunk_blocks block max
        else all_blocks ++ [block]) init blocks
      = init ++ blocks.flatMap (fun block =>
          if max < block.length ∨ startsCompound block then
            _ast_chunk_blocks block max
          else [block]) := by
    intro blocks
    induction blocks with
    | nil => intro init; simp
    | cons b rest ih =>
      intro init
      rw [List.foldl_cons, List.flatMap_cons, ih]
      by_cases h : max < b.length ∨ startsCompound b
      · rw [if_pos h, if_pos h, List.append_assoc]
      · rw [if_neg h, if_neg h, List.append_assoc]
  intro blocks
  unfold dispatchLoop
  rw [key, List.nil_append]

/-! ## C1: soft budget (amended) -/

theorem semiStmts_shape (b : List Char) :
    ∀ s ∈ semiStmts b, s ≠ [] ∧ s.getLast? = some ';' := by
  intro s hs
  unfold semiStmts at hs
  rcases List.mem_filterMap.mp hs with ⟨part, _, hpart⟩
  by_cases hp : (pyStrip part).isEmpty
  · rw [if_pos hp] at hpart; cases hpart
  · rw [if_neg hp] at hpart
    cases hpart
    exact ⟨by simp, List.getLast?_concat _⟩

theorem resplitGo_blocks (max : Nat) :
    ∀ (stmts buff : List (List Char)) (blen : Nat),
      blen = sumLens buff → blen ≤ max →
      (∀ s ∈ buff, s ≠ [] ∧ s.getLast? = some ';') →
      (∀ s ∈ stmts, s ≠ [] ∧ s.getLast? = some ';') →
      ∀ b ∈ resplitGo max stmts buff blen,
        ∃ l : List (List Char), l ≠ [] ∧ b = joinNL l ∧
          (∀ s ∈ l, s ≠ [] ∧ s.getLast? = some ';') ∧
          sumLens l.dropLast ≤ max := by
  intro stmts
  induction stmts with
  | nil =>
    intro buff blen hsum hle hbuff _ b hb
    unfold resplitGo at hb
    by_cases hbe : buff.isEmpty
    · rw [if_pos hbe] at hb; cases hb
    · rw [if_neg hbe] at hb
      rcases List.mem_singleton.mp hb with rfl
      refine ⟨buff, ?_, rfl, hbuff, ?_⟩
      · intro h; rw [h] at hbe; exact hbe rfl
      · calc sumLens buff.dropLast ≤ sumLens buff := sumLens_dropLast_le _
          _ ≤ max := hsum ▸ hle
  | cons stmt rest ih =>
    intro buff blen hsum hle hbuff hstmts b hb
    unfold resplitGo at hb
    by_cases hflush : max < blen + stmt.length
    · rw [if_pos hflush] at hb
      rcases List.mem_cons.mp hb with rfl | hb'
      · refine ⟨buff ++ [stmt], by simp, rfl, ?_, ?_⟩
        · intro s hs
          rcases List.mem_append.mp hs with h | h
          · exact hbuff s h
          · rcases List.mem_singleton.mp h with rfl
            exact hstmts s (List.mem_cons_self _ _)
        · rw [List.dropLast_concat]
          exact hsum ▸ hle
      · exact ih [] 0 (by simp [sumLens]) (Nat.zero_le _) (by simp)
          (fun s hs => hstmts s (List.mem_cons_of_mem _ hs)) b hb'
    · rw [if_neg hflush] at hb
      exact ih (buff ++ [stmt]) (blen + stmt.length)
        (by rw [sumLens_append, hsum]; simp [sumLens])
        (Nat.le_of_not_lt hflush)
        (fun s hs => by
          rcases List.mem_append.mp hs with h | h
          · exact hbuff s h
          · rcases List.mem_singleton.mp h with rfl
            exact hstmts s (List.mem_cons_self _ _))
        (fun s hs => hstmts s (List.mem_cons_of_mem _ hs)) b hb

/-- C1 (amended): every output block is within budget, or it is the
newline-join of a nonempty list of `;`-terminated statements all but the
last of which together fit the budget (the statement that overflowed the
bucket is always kept in that bucket before the flush; a lone oversized
atomic statement is the one-statement case). -/
theorem soft_budget_amended (cs : List Char) (max : Nat) (b : List Char)
    (hb : b ∈ split_plsql_into_blocks cs max) :
    b.length ≤ max ∨
      ∃ l : List (List Char), l ≠ [] ∧ b = joinNL l ∧
        (∀ s ∈ l, s ≠ [] ∧ s.getLast? = some ';') ∧
        sumLens l.dropLast ≤ max := by
  unfold split_plsql_into_blocks at hb
  have hb' := List.mem_filter.mp hb |>.1
  unfold resplitStage at hb'
  rcases List.mem_flatMap.mp hb' with ⟨b0, _, hbin⟩
  by_cases hbig : max < b0.length
  · rw [if_pos hbig] at hbin
    exact Or.inr (resplitGo_blocks max (semiStmts b0) [] 0 (by simp [sumLens])
      (Nat.zero_le _) (by simp) (semiStmts_shape b0) b hbin)
  · rw [if_neg hbig] at hbin
    rcases List.mem_singleton.mp hbin with rfl
    exact Or.inl (Nat.le_of_not_lt hbig)

/-- Witness for C1 at a concrete input (in-budget case). -/
theorem soft_budget_amended_witness :
    ("a;".toList ∈ split_plsql_into_blocks ("a;".toList) 1200) ∧
      (("a;".toList).length ≤ 1200 ∨
        ∃ l : List (List Char), l ≠ [] ∧ "a;".toList = joinNL l ∧
          (∀ s ∈ l, s ≠ [] ∧ s.getLast? = some ';') ∧
          sumLens l.dropLast ≤ 1200) :=
  ⟨by decide, soft_budget_amended ("a;".toList) 1200 ("a;".toList) (by decide)⟩

/-- C1 counterexample: at budget 10 the input `aaaa;bbbb;` produces the
single block `aaaa;\n\nbbbb;`, which exceeds the budget yet contains an
internal `;` split point (it is not a single atomic statement). -/
theorem soft_budget_counterexample :
    split_plsql_into_blocks c1input 10 = [c1block] ∧
      10 < c1block.length ∧ ';' ∈ c1block.dropLast := by
  decide

/-! ## C7: BEGIN look-ahead split -/

theorem beginSplitGo_join : ∀ (cs acc : List Char),
    (beginSplitGo cs acc).flatten = acc.reverse ++ cs := by
  intro cs
  induction cs with
  | nil => intro acc; simp [beginSplitGo]
  | cons c t ih =>
    intro acc
    unfold beginSplitGo
    by_cases h : beginHere (c :: t)
    · rw [if_pos h]
      simp [List.flatten, ih [c]]
    · rw [if_neg h, ih (c :: acc)]
      simp

theorem beginSplitGo_length : ∀ (cs acc : List Char),
    (beginSplitGo cs acc).length = 1 + countBeginPoints cs := by
  intro cs
  induction cs with
  | nil => intro acc; simp [beginSplitGo, countBeginPoints]
  | cons c t ih =>
    intro acc
    unfold beginSplitGo countBeginPoints
    by_cases h : beginHere (c :: t)
    · rw [if_pos h, if_pos h]
      simp [ih [c]]
      omega
    · rw [if_neg h, if_neg h, ih (c :: acc)]
      simp

theorem beginSplitGo_head : ∀ (cs acc : List Char),
    ∃ z, (beginSplitGo cs acc).head? = some (acc.reverse ++ z) := by
  intro cs
  induction cs with
  | nil => intro acc; exact ⟨[], by simp [beginSplitGo]⟩
  | cons c t ih =>
    intro acc
    unfold beginSplitGo
    by_cases h : beginHere (c :: t)
    · rw [if_pos h]
      exact ⟨[], by simp⟩
    · rw [if_neg h]
      rcases ih (c :: acc) with ⟨z, hz⟩
      exact ⟨c :: z, by rw [hz]; simp⟩

theorem beginHere_shape {c : Char} {t : List Char} (h : beginHere (c :: t) = true) :
    ∃ a b d e t', t = a :: b :: d :: e :: t' ∧ pyToUpper c = 'B' ∧
      pyToUpper a = 'E' ∧ pyToUpper b = 'G' ∧ pyToUpper d = 'I' ∧ pyToUpper e = 'N' := by
  unfold beginHere at h
  rw [decide_eq_true_iff] at h
  match t with
  | [] => exact absurd (congrArg List.length h) (by simp)
  | [a] => exact absurd (congrArg List.length h) (by simp)
  | [a, b] => exact absurd (congrArg List.length h) (by simp)
  | [a, b, d] => exact absurd (congrArg List.length h) (by simp)
  | a :: b :: d :: e :: t' =>
    have h' : [pyToUpper c, pyToUpper a, pyToUpper b, pyToUpper d, pyToUpper e]
        = ['B', 'E', 'G', 'I', 'N'] := h
    simp only [List.cons.injEq, and_true] at h'
    exact ⟨a, b, d, e, t', rfl, h'.1, h'.2.1, h'.2.2.1, h'.2.2.2.1, h'.2.2.2.2⟩

theorem beginHere_head {c : Char} {t : List Char} (h : beginHere (c :: t) = true) :
    pyToUpper c = 'B' := by
  rcases beginHere_shape h with ⟨_, _, _, _, _, _, hc, _⟩
  exact hc

theorem beginHere_false {x : Char} {xs : List Char} (h : pyToUpper x ≠ 'B') :
    beginHere (x :: xs) = false := by
  cases hb : beginHere (x :: xs) with
  | false => rfl
  | true => exact absurd (beginHere_head hb) h

theorem beginSplitGo_cons (c : Char) (t acc : List Char) :
    beginSplitGo (c :: t) acc =
      if beginHere (c :: t) = true then acc.reverse :: beginSplitGo t [c]
      else beginSplitGo t (c :: acc) := rfl

theorem beginSplitGo_head_begin {c : Char} {t : List Char}
    (h : beginHere (c :: t) = true) :
    ∀ p, (beginSplitGo t [c]).head? = some p → beginHere p = true := by
  rcases beginHere_shape h with ⟨a, b, d, e, t', rfl, hc, ha, hb, hd, he⟩
  have na : beginHere (a :: b :: d :: e :: t') = false :=
    beginHere_false (by rw [ha]; decide)
  have nb : beginHere (b :: d :: e :: t') = false :=
    beginHere_false (by rw [hb]; decide)
  have nd : beginHere (d :: e :: t') = false :=
    beginHere_false (by rw [hd]; decide)
  have ne' : beginHere (e :: t') = false :=
    beginHere_false (by rw [he]; decide)
  have step : beginSplitGo (a :: b :: d :: e :: t') [c]
      = beginSplitGo t' [e, d, b, a, c] := by
    rw [beginSplitGo_cons, if_neg (by simp [na]),
        beginSplitGo_cons, if_neg (by simp [nb]),
        beginSplitGo_cons, if_neg (by simp [nd]),
        beginSplitGo_cons, if_neg (by simp [ne'])]
  intro p hp
  rw [step] at hp
  obtain ⟨z, hz⟩ := beginSplitGo_head t' [e, d, b, a, c]
  rw [hz] at hp
  injection hp with hp
  subst hp
  unfold beginHere
  rw [decide_eq_true_iff]
  rw [show ([e, d, b, a, c].reverse : List Char) = [c, a, b, d, e] from rfl]
  rw [show List.take 5 ([c, a, b, d, e] ++ z) = [c, a, b, d, e] from by
    rw [List.take_append_of_le_length (by simp)]
    simp]
  simp only [List.map_cons, List.map_nil, hc, ha, hb, hd, he]
  rfl

theorem beginSplitGo_tail : ∀ (cs acc : List Char),
    ∀ p ∈ (beginSplitGo cs acc).drop 1, beginHere p = true := by
  intro cs
  induction cs with
  | nil => intro acc p hp; simp [beginSplitGo] at hp
  | cons c t ih =>
    intro acc p hp
    unfold beginSplitGo at hp
    by_cases h : beginHere (c :: t)
    · rw [if_pos h] at hp
      rw [List.drop_succ_cons, List.drop_zero] at hp
      cases hR : beginSplitGo t [c] with
      | nil =>
        obtain ⟨z, hz⟩ := beginSplitGo_head t [c]
        rw [hR] at hz
        cases hz
      | cons hd tl =>
        rw [hR] at hp
        rcases List.mem_cons.mp hp with rfl | hp'
        · exact beginSplitGo_head_begin h p (by rw [hR]; rfl)
        · exact ih [c] p (by rw [hR]; simpa using hp')
    · rw [if_neg h] at hp
      exact ih (c :: acc) p hp

/-- C7: the oversized-statement split of `_ast_chunk_blocks`
(`re.split` with a `BEGIN` look-ahead, embedded as `beginSplit`) drops no
characters, leaves every `BEGIN` keyword at the start of the segment it
introduces, and cuts exactly at the `BEGIN` positions (segment count =
`BEGIN` occurrence count + 1). -/
theorem begin_lookahead_split (cs : List Char) :
    (beginSplit cs).flatten = cs ∧
      (∀ p ∈ (beginSplit cs).drop 1, beginHere p = true) ∧
      (beginSplit cs).length = 1 + countBeginPoints cs := by
  refine ⟨?_, ?_, ?_⟩
  · rw [beginSplit, beginSplitGo_join]; rfl
  · exact beginSplitGo_tail cs []
  · rw [beginSplit, beginSplitGo_length]

/-- Witness for C7 at a concrete input. -/
theorem begin_lookahead_split_witness :
    ("BEGINy".toList ∈ (beginSplit ("xBEGINy".toList)).drop 1) ∧
      beginHere ("BEGINy".toList) = true :=
  ⟨by decide,
    (begin_lookahead_split ("xBEGINy".toList)).2.1 ("BEGINy".toList) (by decide)⟩

/-! ## Regex match anatomy: every match ends with `;` -/

theorem EndsSemi.pos {cs : List Char} {n : Nat} (h : EndsSemi cs n) : 0 < n := by
  rcases h with ⟨k, rest, rfl, _⟩; omega

theorem EndsSemi.le_length {cs : List Char} {n : Nat} (h : EndsSemi cs n) :
    n ≤ cs.length := by
  rcases h with ⟨k, rest, rfl, hk⟩
  have := congrArg List.length hk
  rw [List.length_drop] at this
  simp at this
  omega

theorem EndsSemi.shift {cs : List Char} {a e : Nat}
    (h : EndsSemi (cs.drop a) e) : EndsSemi cs (a + e) := by
  rcases h with ⟨k, rest, rfl, hk⟩
  exact ⟨a + k, rest, by omega, by rw [← List.drop_drop]; exact hk⟩

theorem matchEndSemi_ends {cs : List Char} {n : Nat}
    (h : matchEndSemi cs = some n) : EndsSemi cs n := by
  unfold matchEndSemi at h
  split at h
  · cases h
  · next a ha =>
    split at h
    · next tail heq =>
      injection h with h
      exact ⟨a + ((cs.drop a).takeWhile pyIsSpace).length, tail, by omega, heq⟩
    · cases h

theorem lazyEnd_ends : ∀ {cs : List Char} {n : Nat},
    lazyEnd cs = some n → EndsSemi cs n := by
  intro cs
  induction cs with
  | nil => intro n h; cases h
  | cons c t ih =>
    intro n h
    unfold lazyEnd at h
    split at h
    · next m he =>
      injection h with h
      exact h ▸ matchEndSemi_ends he
    · rcases hl : lazyEnd t with _ | m <;> rw [hl] at h
      · cases h
      · simp only [Option.map_some', Option.some.injEq] at h
        rcases ih hl with ⟨k, rest, rfl, hk⟩
        exact ⟨k + 1, rest, by omega, hk⟩

theorem kwEnd_ends {cs : List Char} {n : Nat} (h : kwEnd cs = some n) :
    EndsSemi cs n := by
  unfold kwEnd at h
  split at h
  · cases h
  · split at h
    · cases h
    · next k _ e he =>
      injection h with h
      exact h ▸ EndsSemi.shift (lazyEnd_ends he)

theorem orReplaceKwEnd_ends {cs : List Char} {n : Nat}
    (h : orReplaceKwEnd cs = some n) : EndsSemi cs n := by
  unfold orReplaceKwEnd at h
  split at h
  · cases h
  · split at h
    · cases h
    · next g _ k hk =>
      injection h with h
      exact h ▸ EndsSemi.shift (kwEnd_ends hk)

theorem matchCreate_ends {cs : List Char} {n : Nat} (h : matchCreate cs = some n) :
    EndsSemi cs n := by
  unfold matchCreate at h
  split at h
  · cases h
  · split at h
    · cases h
    · split at h
      · next hg =>
        injection h with h
        exact h ▸ EndsSemi.shift (orReplaceKwEnd_ends hg)
      · split at h
        · next hk =>
          injection h with h
          exact h ▸ EndsSemi.shift (kwEnd_ends hk)
        · cases h

theorem matchDeclare_ends {cs : List Char} {n : Nat} (h : matchDeclare cs = some n) :
    EndsSemi cs n := by
  unfold matchDeclare at h
  split at h
  · cases h
  · split at h
    · cases h
    · next he =>
      injection h with h
      exact h ▸ EndsSemi.shift (lazyEnd_ends he)

theorem matchBeginBlock_ends {cs : List Char} {n : Nat}
    (h : matchBeginBlock cs = some n) : EndsSemi cs n := by
  unfold matchBeginBlock at h
  split at h
  · cases h
  · split at h
    · cases h
    · next he =>
      injection h with h
      exact h ▸ EndsSemi.shift (lazyEnd_ends he)

theorem matchFallback_ends {cs : List Char} {n : Nat}
    (h : matchFallback cs = some n) : EndsSemi cs n := by
  unfold matchFallback at h
  split at h
  · cases h
  · next m hm =>
    split at h
    · next tail heq =>
      injection h with h
      exact ⟨m + 1, tail, by omega, heq⟩
    · cases h

theorem matchAt_ends {cs : List Char} {n : Nat} (h : matchAt cs = some n) :
    EndsSemi cs n := by
  unfold matchAt at h
  split at h
  · next hc => injection h with h; exact h ▸ matchCreate_ends hc
  · split at h
    · next hd => injection h with h; exact h ▸ matchDeclare_ends hd
    · split at h
      · next hb => injection h with h; exact h ▸ matchBeginBlock_ends hb
      · exact matchFallback_ends h

theorem getLast?_cons_of_ne_nil {c : Char} {l : List Char} (h : l ≠ []) :
    (c :: l).getLast? = l.getLast? := by
  cases l with
  | nil => exact absurd rfl h
  | cons a t => rfl

theorem take_getLast_of_drop {x : Char} : ∀ (k : Nat) (cs r : List Char),
    cs.drop k = x :: r → (cs.take (k + 1)).getLast? = some x := by
  intro k
  induction k with
  | zero =>
    intro cs r h
    rw [List.drop_zero] at h
    subst h
    rfl
  | succ k ih =>
    intro cs r h
    cases cs with
    | nil => cases h
    | cons c t =>
      rw [List.drop_succ_cons] at h
      rw [List.take_succ_cons]
      have ht := ih t r h
      rw [getLast?_cons_of_ne_nil, ht]
      intro hnil
      rw [hnil] at ht
      cases ht

theorem findallGo_last : ∀ (fuel : Nat) (cs : List Char),
    ∀ m ∈ findallGo fuel cs, m ≠ [] ∧ m.getLast? = some ';' := by
  intro fuel
  induction fuel with
  | zero => intro cs m hm; simp [findallGo] at hm
  | succ fuel ih =>
    intro cs m hm
    cases cs with
    | nil => simp [findallGo] at hm
    | cons c t =>
      unfold findallGo at hm
      split at hm
      · next n hn =>
        rcases List.mem_cons.mp hm with rfl | hm'
        · rcases matchAt_ends hn with ⟨k, rest, rfl, hk⟩
          have hlast := take_getLast_of_drop k (c :: t) rest hk
          refine ⟨?_, hlast⟩
          intro hnil
          rw [hnil] at hlast
          cases hlast
        · exact ih _ m hm'
      · exact ih t m hm

theorem dropWhile_getLast? {p : Char → Bool} : ∀ {l : List Char},
    l.dropWhile p ≠ [] → (l.dropWhile p).getLast? = l.getLast? := by
  intro l
  induction l with
  | nil => intro h; simp at h
  | cons c t ih =>
    intro h
    rw [List.dropWhile_cons] at h ⊢
    by_cases hc : p c
    · rw [if_pos hc] at h ⊢
      rw [ih h, getLast?_cons_of_ne_nil]
      intro hnil
      rw [hnil] at h
      simp [List.dropWhile_nil] at h
    · rw [if_neg hc]

theorem stripRight_of_last_semi {m : List Char} (h : m.getLast? = some ';') :
    pyStripRight m = m := by
  unfold pyStripRight
  cases hm : m.reverse with
  | nil =>
    have : m = [] := by simpa using congrArg List.reverse hm
    rw [this] at h
    cases h
  | cons c r =>
    have hc : c = ';' := by
      have h2 : m.getLast? = some c := by
        rw [← List.head?_reverse, hm]
        rfl
      exact Option.some.inj (h2.symm.trans h)
    subst hc
    rw [List.dropWhile_cons, if_neg (by decide)]
    simpa using (congrArg List.reverse hm).symm

theorem stripLeft_idem (m : List Char) :
    pyStripLeft (pyStripLeft m) = pyStripLeft m := by
  unfold pyStripLeft
  cases hm : m.dropWhile pyIsSpace with
  | nil => rfl
  | cons c r =>
    have hc : pyIsSpace c = false := by
      have := List.head?_dropWhile_not pyIsSpace m
      rw [hm] at this
      simpa using this
    rw [List.dropWhile_cons, if_neg (by simp [hc])]

theorem stripLeft_getLast? {m : List Char} (h : pyStripLeft m ≠ []) :
    (pyStripLeft m).getLast? = m.getLast? := dropWhile_getLast? h

theorem pyStrip_last_semi {m : List Char} (h : m.getLast? = some ';') :
    pyStrip m ≠ [] ∧ (pyStrip m).getLast? = some ';' ∧ pyStrip (pyStrip m) = pyStrip m := by
  have hsr : pyStripRight m = m := stripRight_of_last_semi h
  have hne : pyStrip m ≠ [] := by
    unfold pyStrip
    rw [hsr]
    intro hnil
    unfold pyStripLeft at hnil
    rw [List.dropWhile_eq_nil_iff] at hnil
    have hmem : ';' ∈ m := by
      rw [← List.head?_reverse] at h
      exact List.mem_reverse.mp (List.mem_of_mem_head? (by rw [h]; rfl))
    have := hnil ';' hmem
    simp [pyIsSpace] at this
  have hlast : (pyStrip m).getLast? = some ';' := by
    unfold pyStrip
    rw [hsr]
    rw [stripLeft_getLast? (by unfold pyStrip at hne; rw [hsr] at hne; exact hne)]
    exact h
  refine ⟨hne, hlast, ?_⟩
  have h1 : pyStrip m = pyStripLeft m := by unfold pyStrip; rw [hsr]
  calc pyStrip (pyStrip m) = pyStripLeft (pyStripRight (pyStrip m)) := rfl
    _ = pyStripLeft (pyStrip m) := by rw [stripRight_of_last_semi hlast]
    _ = pyStripLeft (pyStripLeft m) := by rw [h1]
    _ = pyStripLeft m := stripLeft_idem m
    _ = pyStrip m := h1.symm

/-- C10: every unit returned by `_regex_chunk_blocks` is non-empty, is
not the lone `/`, carries no surrounding whitespace (it is a `strip`
fixed point), and ends with `;`. -/
theorem extractor_unit_invariants (cs : List Char) :
    ∀ u ∈ _regex_chunk_blocks cs,
      u ≠ [] ∧ u ≠ ['/'] ∧ pyStrip u = u ∧ u.getLast? = some ';' := by
  intro u hu
  unfold _regex_chunk_blocks at hu
  rcases List.mem_filterMap.mp hu with ⟨m, hm, hmu⟩
  by_cases hcond : pyStrip m = [] ∨ pyStrip m = ['/']
  · rw [if_pos hcond] at hmu; cases hmu
  · rw [if_neg hcond] at hmu
    injection hmu with hmu
    subst hmu
    have hlast := (findallGo_last _ _ m hm).2
    rcases pyStrip_last_semi hlast with ⟨hne, hsl, hidem⟩
    exact ⟨hne, fun h => (not_or.mp hcond).2 h, hidem, hsl⟩

/-- Witness for C10 at a concrete input. -/
theorem extractor_unit_invariants_witness :
    ("a;".toList ∈ _regex_chunk_blocks ("a;".toList)) ∧
      ("a;".toList ≠ [] ∧ "a;".toList ≠ ['/'] ∧
        pyStrip ("a;".toList) = "a;".toList ∧ ("a;".toList).getLast? = some ';') :=
  ⟨by decide, extractor_unit_invariants ("a;".toList) ("a;".toList) (by decide)⟩

/-! ## C2: extractor coverage -/

theorem drop_length_takeWhile (p : Char → Bool) : ∀ (cs : List Char),
    cs.drop (cs.takeWhile p).length = cs.dropWhile p := by
  intro cs
  induction cs with
  | nil => rfl
  | cons c t ih =>
    rw [List.takeWhile_cons, List.dropWhile_cons]
    by_cases hc : p c
    · rw [if_pos hc, if_pos hc]
      simpa using ih
    · rw [if_neg hc, if_neg hc]
      rfl

theorem matchFallback_none {cs : List Char} (h : matchFallback cs = none) :
    cs = [] ∨ cs.head? = some ';' ∨ ';' ∉ cs := by
  unfold matchFallback at h
  split at h
  · next h0 =>
    cases cs with
    | nil => exact Or.inl rfl
    | cons c t =>
      rw [List.takeWhile_cons] at h0
      by_cases hc : c = ';'
      · exact Or.inr (Or.inl (by rw [hc]; rfl))
      · rw [if_pos (by simp [hc])] at h0
        simp at h0
  · next n hn =>
    right; right
    intro hsem
    have hn' : (cs.takeWhile (fun c => !(c == ';'))).length = n + 1 := hn
    have hdw : cs.drop (n + 1) = cs.dropWhile (fun c => !(c == ';')) := by
      rw [← hn', drop_length_takeWhile]
    have hne : cs.dropWhile (fun c => !(c == ';')) ≠ [] := by
      intro hnil
      rw [List.dropWhile_eq_nil_iff] at hnil
      have := hnil ';' hsem
      simp at this
    rcases hhd : cs.dropWhile (fun c => !(c == ';')) with _ | ⟨x, r⟩
    · exact hne hhd
    · have hx : x = ';' := by
        have := List.head?_dropWhile_not (fun c => !(c == ';')) cs
        rw [hhd] at this
        simpa using this
      subst hx
      rw [hhd] at hdw
      rw [hdw] at h
      cases h

theorem matchAt_none {cs : List Char} (h : matchAt cs = none) :
    cs = [] ∨ cs.head? = some ';' ∨ ';' ∉ cs := by
  have hf : matchFallback cs = none := by
    unfold matchAt at h
    split at h
    · cases h
    · split at h
      · cases h
      · split at h
        · cases h
        · exact h
  exact matchFallback_none hf

theorem upToLastSemi_append {m : List Char} (h : m.getLast? = some ';')
    (rest : List Char) :
    upToLastSemi (m ++ rest) = m ++ upToLastSemi rest := by
  unfold upToLastSemi
  rw [List.reverse_append, List.dropWhile_append]
  by_cases he : (rest.reverse.dropWhile (fun c => !(c == ';'))).isEmpty
  · rw [if_pos he]
    have hm : m.reverse.dropWhile (fun c => !(c == ';')) = m.reverse := by
      cases hmr : m.reverse with
      | nil => rfl
      | cons c r =>
        have hc : c = ';' := by
          have h2 : m.getLast? = some c := by
            rw [← List.head?_reverse, hmr]
            rfl
          exact Option.some.inj (h2.symm.trans h)
        subst hc
        rw [List.dropWhile_cons, if_neg (by decide)]
    rw [hm, List.reverse_reverse]
    rw [List.isEmpty_iff] at he
    rw [he]
    simp
  · rw [if_neg he, List.reverse_append, List.reverse_reverse]

theorem upToLastSemi_no_semi {cs : List Char} (h : ';' ∉ cs) :
    upToLastSemi cs = [] := by
  unfold upToLastSemi
  have : cs.reverse.dropWhile (fun c => !(c == ';')) = [] := by
    rw [List.dropWhile_eq_nil_iff]
    intro x hx
    have hxm : x ∈ cs := List.mem_reverse.mp hx
    simp only [Bool.not_eq_true']
    rw [beq_eq_false_iff_ne]
    intro hxe
    exact h (hxe ▸ hxm)
  rw [this]
  rfl

theorem interesting_append (a b : List Char) :
    interesting (a ++ b) = interesting a ++ interesting b :=
  List.filter_append _ _

theorem interesting_dropWhileWs : ∀ (l : List Char),
    interesting (l.dropWhile pyIsSpace) = interesting l := by
  intro l
  induction l with
  | nil => rfl
  | cons c t ih =>
    rw [List.dropWhile_cons]
    by_cases hc : pyIsSpace c
    · rw [if_pos hc, ih]
      unfold interesting
      rw [List.filter_cons]
      rw [if_neg (by simp [hc])]
    · rw [if_neg hc]

theorem interesting_reverse (l : List Char) :
    interesting l.reverse = (interesting l).reverse :=
  List.filter_reverse _ _

theorem interesting_pyStrip (x : List Char) :
    interesting (pyStrip x) = interesting x := by
  unfold pyStrip pyStripLeft pyStripRight
  rw [interesting_dropWhileWs, interesting_reverse, interesting_dropWhileWs,
    interesting_reverse, List.reverse_reverse]

theorem findallGo_coverage : ∀ (fuel : Nat) (cs : List Char), cs.length ≤ fuel →
    interesting (upToLastSemi cs) = interesting ((findallGo fuel cs).flatten) := by
  intro fuel
  induction fuel with
  | zero =>
    intro cs h
    have : cs = [] := List.eq_nil_of_length_eq_zero (Nat.le_zero.mp h)
    subst this
    rfl
  | succ fuel ih =>
    intro cs hlen
    cases cs with
    | nil => rfl
    | cons c t =>
      unfold findallGo
      rcases hma : matchAt (c :: t) with _ | n
      · have := matchAt_none hma
        rcases this with hnil | hhd | hnos
        · cases hnil
        · have hc : c = ';' := by simpa using hhd
          subst hc
          rw [show upToLastSemi (';' :: t) = [';'] ++ upToLastSemi t from
            @upToLastSemi_append [';'] rfl t]
          rw [interesting_append]
          rw [show interesting [';'] = [] from rfl, List.nil_append]
          exact ih t (by simpa using Nat.le_of_succ_le_succ hlen)
        · have hnt : ';' ∉ t := fun hm => hnos (List.mem_cons_of_mem c hm)
          rw [upToLastSemi_no_semi hnos]
          rw [← ih t (by simpa using Nat.le_of_succ_le_succ hlen)]
          rw [upToLastSemi_no_semi hnt]
      · rcases matchAt_ends hma with ⟨k, rest, hn, hk⟩
        have hlast : ((c :: t).take n).getLast? = some ';' :=
          hn ▸ take_getLast_of_drop k (c :: t) rest hk
        have hcover : (c :: t) = (c :: t).take n ++ (c :: t).drop n :=
          (List.take_append_drop n (c :: t)).symm
        rw [List.flatten_cons, interesting_append]
        conv_lhs => rw [hcover]
        rw [upToLastSemi_append hlast, interesting_append]
        congr 1
        have hdroplen : ((c :: t).drop n).length ≤ fuel := by
          rw [List.length_drop]
          simp only [List.length_cons] at hlen ⊢
          omega
        exact ih _ hdroplen

theorem filterMap_strip_of_last_semi : ∀ (L : List (List Char)),
    (∀ m ∈ L, m.getLast? = some ';') →
    (L.filterMap (fun block =>
      if pyStrip block = [] ∨ pyStrip block = ['/'] then none
      else some (pyStrip block))) = L.map pyStrip := by
  intro L
  induction L with
  | nil => intro _; rfl
  | cons m L ih =>
    intro hall
    rcases pyStrip_last_semi (hall m (List.mem_cons_self _ _)) with ⟨hne, hlast, _⟩
    have hcond : ¬(pyStrip m = [] ∨ pyStrip m = ['/']) := by
      rintro (h | h)
      · exact hne h
      · rw [h] at hlast
        exact absurd (Option.some.inj hlast) (by decide)
    rw [List.filterMap_cons, List.map_cons, if_neg hcond,
      ih (fun x hx => hall x (List.mem_cons_of_mem _ hx))]

theorem interesting_flatten_map_strip : ∀ (L : List (List Char)),
    interesting ((L.map pyStrip).flatten) = interesting (L.flatten) := by
  intro L
  induction L with
  | nil => rfl
  | cons m L ih =>
    rw [List.map_cons, List.flatten_cons, List.flatten_cons,
      interesting_append, interesting_append, interesting_pyStrip, ih]

/-- C2 (amended): the units of `_regex_chunk_blocks`, concatenated,
preserve exactly (and in order) the characters of the newline-normalized
input that precede its last `;`, other than whitespace and `;` itself.
Text after the last `;` (which no pattern can match) and stray `;`
separators are dropped. -/
theorem extractor_coverage_amended (cs : List Char) :
    interesting (upToLastSemi (normalizeNewlines cs)) =
      interesting ((_regex_chunk_blocks cs).flatten) := by
  have hreg : _regex_chunk_blocks cs
      = (findall (normalizeNewlines cs)).map pyStrip := by
    unfold _regex_chunk_blocks
    exact filterMap_strip_of_last_semi _ (fun m hm => (findallGo_last _ _ m hm).2)
  rw [hreg, interesting_flatten_map_strip]
  exact findallGo_coverage _ _ (Nat.le_refl _)

/-- C2 counterexample: the input `x` has no `;`, so the extractor returns
no units at all and the non-whitespace character `x` is lost, refuting
total coverage. -/
theorem extractor_coverage_counterexample :
    _regex_chunk_blocks ("x".toList) = [] ∧ interesting ("x".toList) = ['x'] := by
  decide

/-! ## C4: the merge pass as a grouping of fragments -/

theorem mergeStep_blank {s : List (List (List Char)) × List (List Char)}
    {f : List Char} (h : (pyStrip f).isEmpty = true) : mergeStep s f = s := by
  unfold mergeStep
  rw [if_pos h]

theorem mergeStep_small_flush {s : List (List (List Char)) × List (List Char)}
    {f : List Char} (h1 : ¬(pyStrip f).isEmpty = true) (h2 : f.length < 180)
    (h3 : 300 < sumLens (s.2 ++ [f])) :
    mergeStep s f = (s.1 ++ [s.2 ++ [f]], []) := by
  unfold mergeStep
  rw [if_neg h1, if_pos h2, if_pos h3]

theorem mergeStep_small_keep {s : List (List (List Char)) × List (List Char)}
    {f : List Char} (h1 : ¬(pyStrip f).isEmpty = true) (h2 : f.length < 180)
    (h3 : ¬300 < sumLens (s.2 ++ [f])) :
    mergeStep s f = (s.1, s.2 ++ [f]) := by
  unfold mergeStep
  rw [if_neg h1, if_pos h2, if_neg h3]

theorem mergeStep_big {s : List (List (List Char)) × List (List Char)}
    {f : List Char} (h1 : ¬(pyStrip f).isEmpty = true) (h2 : ¬f.length < 180) :
    mergeStep s f = ((s.1 ++ (if s.2.isEmpty then [] else [s.2])) ++ [[f]], []) := by
  unfold mergeStep
  rw [if_neg h1, if_neg h2]

theorem mergeStep_shift (gs : List (List (List Char))) (t : List (List Char))
    (f : List Char) :
    mergeStep (gs, t) f
      = (gs ++ (mergeStep ([], t) f).1, (mergeStep ([], t) f).2) := by
  by_cases h1 : (pyStrip f).isEmpty
  · rw [mergeStep_blank h1, mergeStep_blank h1]
    simp
  · by_cases h2 : f.length < 180
    · by_cases h3 : 300 < sumLens (t ++ [f])
      · rw [mergeStep_small_flush h1 h2 h3, mergeStep_small_flush h1 h2 h3]
        simp
      · rw [mergeStep_small_keep h1 h2 h3, mergeStep_small_keep h1 h2 h3]
        simp
    · rw [mergeStep_big h1 h2, mergeStep_big h1 h2]
      simp

theorem foldl_mergeStep_shift : ∀ (frags : List (List Char))
    (gs : List (List (List Char))) (t : List (List Char)),
    List.foldl mergeStep (gs, t) frags
      = (gs ++ (List.foldl mergeStep ([], t) frags).1,
         (List.foldl mergeStep ([], t) frags).2) := by
  intro frags
  induction frags with
  | nil => intro gs t; simp
  | cons f rest ih =>
    intro gs t
    rw [List.foldl_cons, List.foldl_cons, mergeStep_shift,
      ih (gs ++ (mergeStep ([], t) f).1) ((mergeStep ([], t) f).2)]
    conv_rhs =>
      rw [show mergeStep ([], t) f
            = (((mergeStep ([], t) f).1 : List (List (List Char))),
               (mergeStep ([], t) f).2) from rfl,
        ih ((mergeStep ([], t) f).1) ((mergeStep ([], t) f).2)]
    rw [List.append_assoc]

theorem mergeTemp_fate : ∀ (frags : List (List Char))
    (gs : List (List (List Char))) (t : List (List Char)), t ≠ [] →
    (∃ ext, (List.foldl mergeStep (gs, t) frags).2 = t ++ ext) ∨
    (∃ gs1 ext gs2, (List.foldl mergeStep (gs, t) frags).1
        = gs1 ++ (t ++ ext) :: gs2) := by
  intro frags
  induction frags with
  | nil =>
    intro gs t _
    exact Or.inl ⟨[], by simp⟩
  | cons f rest ih =>
    intro gs t ht
    rw [List.foldl_cons]
    by_cases h1 : (pyStrip f).isEmpty
    · rw [mergeStep_blank h1]
      exact ih gs t ht
    · by_cases h2 : f.length < 180
      · by_cases h3 : 300 < sumLens (t ++ [f])
        · rw [mergeStep_small_flush h1 h2 h3]
          right
          rw [foldl_mergeStep_shift]
          exact ⟨gs, [f], (List.foldl mergeStep ([], []) rest).1, by simp⟩
        · rw [mergeStep_small_keep h1 h2 h3]
          rcases ih (gs : List (List (List Char))) (t ++ [f]) (by simp) with
            ⟨ext, hext⟩ | ⟨gs1, ext, gs2, hg⟩
          · exact Or.inl ⟨[f] ++ ext, by rw [hext, List.append_assoc]⟩
          · exact Or.inr ⟨gs1, [f] ++ ext, gs2, by
              rw [hg, List.append_assoc]⟩
      · rw [mergeStep_big h1 h2, if_neg (by simpa using ht)]
        right
        rw [foldl_mergeStep_shift]
        refine ⟨gs, [], [f] :: (List.foldl mergeStep ([], []) rest).1, ?_⟩
        simp

/-- Invariant: every merge group is a singleton or consists entirely of
fragments under 180 characters. -/
theorem mergeGroups_small_or_singleton : ∀ (frags : List (List Char))
    (gs : List (List (List Char))) (t : List (List Char)),
    (∀ g ∈ gs, (∃ x, g = [x]) ∨ ∀ x ∈ g, x.length < 180) →
    (∀ x ∈ t, x.length < 180) →
    (∀ g ∈ (List.foldl mergeStep (gs, t) frags).1
        ++ (if (List.foldl mergeStep (gs, t) frags).2 = [] then []
            else [(List.foldl mergeStep (gs, t) frags).2]),
      (∃ x, g = [x]) ∨ ∀ x ∈ g, x.length < 180) := by
  intro frags
  induction frags with
  | nil =>
    intro gs t hgs ht g hg
    simp only [List.foldl_nil] at hg
    rcases List.mem_append.mp hg with h | h
    · exact hgs g h
    · split at h
      · cases h
      · rcases List.mem_singleton.mp h with rfl
        exact Or.inr ht
  | cons f rest ih =>
    intro gs t hgs ht g hg
    rw [List.foldl_cons] at hg
    by_cases h1 : (pyStrip f).isEmpty
    · rw [mergeStep_blank h1] at hg
      exact ih gs t hgs ht g hg
    · by_cases h2 : f.length < 180
      · by_cases h3 : 300 < sumLens (t ++ [f])
        · rw [mergeStep_small_flush h1 h2 h3] at hg
          refine ih _ [] ?_ (by simp) g hg
          intro g' hg'
          rcases List.mem_append.mp hg' with h | h
          · exact hgs g' h
          · rcases List.mem_singleton.mp h with rfl
            refine Or.inr ?_
            intro x hx
            rcases List.mem_append.mp hx with h | h
            · exact ht x h
            · rcases List.mem_singleton.mp h with rfl
              exact h2
        · rw [mergeStep_small_keep h1 h2 h3] at hg
          refine ih gs (t ++ [f]) hgs ?_ g hg
          intro x hx
          rcases List.mem_append.mp hx with h | h
          · exact ht x h
          · rcases List.mem_singleton.mp h with rfl
            exact h2
      · rw [mergeStep_big h1 h2] at hg
        refine ih _ [] ?_ (by simp) g hg
        intro g' hg'
        rcases List.mem_append.mp hg' with h | h
        · rcases List.mem_append.mp h with h' | h'
          · exact hgs g' h'
          · split at h'
            · cases h'
            · rcases List.mem_singleton.mp h' with rfl
              exact Or.inr ht
        · rcases List.mem_singleton.mp h with rfl
          exact Or.inl ⟨f, rfl⟩

theorem joinNL_singleton (b : List Char) : joinNL [b] = b := by
  unfold joinNL
  simp [List.intercalate]

theorem mergeGo_eq_groups : ∀ (frags temp : List (List Char)),
    mergeGo frags temp
      = ((List.foldl mergeStep ([], temp) frags).1
          ++ (if (List.foldl mergeStep ([], temp) frags).2 = [] then []
              else [(List.foldl mergeStep ([], temp) frags).2])).map joinNL := by
  intro frags
  induction frags with
  | nil =>
    intro temp
    unfold mergeGo
    simp only [List.foldl_nil, List.nil_append]
    by_cases h : temp.isEmpty
    · rw [if_pos h, if_pos (List.isEmpty_iff.mp h)]
      rfl
    · rw [if_neg h, if_neg (by intro hc; rw [hc] at h; exact h rfl)]
      rfl
  | cons b rest ih =>
    intro temp
    unfold mergeGo
    rw [List.foldl_cons]
    by_cases h1 : (pyStrip b).isEmpty
    · rw [if_pos h1, mergeStep_blank h1]
      exact ih temp
    · rw [if_neg h1]
      by_cases h2 : b.length < 180
      · rw [if_pos h2]
        by_cases h3 : 300 < sumLens (temp ++ [b])
        · rw [if_pos h3, mergeStep_small_flush h1 h2 h3]
          rw [foldl_mergeStep_shift, ih []]
          simp only [List.nil_append]
          rw [show ([temp ++ [b]] ++ (List.foldl mergeStep ([], []) rest).1)
                ++ (if (List.foldl mergeStep ([], []) rest).2 = [] then []
                    else [(List.foldl mergeStep ([], []) rest).2])
              = (temp ++ [b]) :: ((List.foldl mergeStep ([], []) rest).1
                ++ (if (List.foldl mergeStep ([], []) rest).2 = [] then []
                    else [(List.foldl mergeStep ([], []) rest).2])) from by simp]
          rw [List.map_cons]
        · rw [if_neg h3, mergeStep_small_keep h1 h2 h3]
          exact ih (temp ++ [b])
      · rw [if_neg h2, mergeStep_big h1 h2]
        rw [foldl_mergeStep_shift, ih []]
        by_cases h : temp.isEmpty
        · rw [if_pos h, if_pos h]
          simp [joinNL_singleton]
        · rw [if_neg h, if_neg h]
          simp [joinNL_singleton]

theorem merge_pair_together (pre post : List (List Char)) (a b : List Char)
    (hsa : ¬(pyStrip a).isEmpty = true) (hsb : ¬(pyStrip b).isEmpty = true)
    (ha : a.length < 180) (hb : b.length < 180)
    (hsum : ¬300 < sumLens (mergeTemp pre ++ [a])) :
    ∃ gs1 g gs2, mergeGroups (pre ++ a :: b :: post) = gs1 ++ g :: gs2 ∧
      ∃ t1 t2, g = t1 ++ a :: b :: t2 := by
  have hsum' : ¬300 < sumLens ((List.foldl mergeStep ([], []) pre).2 ++ [a]) := hsum
  unfold mergeGroups
  rw [show pre ++ a :: b :: post = (pre ++ [a, b]) ++ post from by simp]
  rw [List.foldl_append, List.foldl_append]
  rw [show List.foldl mergeStep (List.foldl mergeStep ([], []) pre) [a, b]
      = mergeStep (mergeStep (List.foldl mergeStep ([], []) pre) a) b from rfl]
  rw [mergeStep_small_keep hsa ha hsum']
  by_cases h3 : 300 < sumLens (((List.foldl mergeStep ([], []) pre).2 ++ [a]) ++ [b])
  · rw [mergeStep_small_flush hsb hb h3]
    rw [foldl_mergeStep_shift]
    refine ⟨(List.foldl mergeStep ([], []) pre).1,
      ((List.foldl mergeStep ([], []) pre).2 ++ [a]) ++ [b],
      (List.foldl mergeStep ([], []) post).1
        ++ (if (List.foldl mergeStep ([], []) post).2 = [] then []
            else [(List.foldl mergeStep ([], []) post).2]), ?_,
      (List.foldl mergeStep ([], []) pre).2, [], by simp⟩
    simp
  · rw [mergeStep_small_keep hsb hb h3]
    rcases mergeTemp_fate post ((List.foldl mergeStep ([], []) pre).1)
        (((List.foldl mergeStep ([], []) pre).2 ++ [a]) ++ [b]) (by simp) with
      ⟨ext, hext⟩ | ⟨gs1, ext, gs2, hg⟩
    · refine ⟨(List.foldl mergeStep ((List.foldl mergeStep ([], []) pre).1,
          ((List.foldl mergeStep ([], []) pre).2 ++ [a]) ++ [b]) post).1,
        ((((List.foldl mergeStep ([], []) pre).2 ++ [a]) ++ [b]) ++ ext), [], ?_,
        (List.foldl mergeStep ([], []) pre).2, ext, by simp⟩
      rw [hext, if_neg (by simp)]
    · refine ⟨gs1, ((((List.foldl mergeStep ([], []) pre).2 ++ [a]) ++ [b]) ++ ext),
        gs2 ++ (if (List.foldl mergeStep ((List.foldl mergeStep ([], []) pre).1,
            ((List.foldl mergeStep ([], []) pre).2 ++ [a]) ++ [b]) post).2 = [] then []
          else [(List.foldl mergeStep ((List.foldl mergeStep ([], []) pre).1,
            ((List.foldl mergeStep ([], []) pre).2 ++ [a]) ++ [b]) post).2]), ?_,
        (List.foldl mergeStep ([], []) pre).2, ext, by simp⟩
      rw [hg]
      simp

/-- C4 (amended): in the merge pass, two adjacent non-blank fragments
both under 180 characters land together inside exactly one output group
provided the buffer's running total right after the first of them does
not exceed 300 (in particular whenever the buffer was empty and their
combined length is at most 300); and a fragment of 180 or more characters
always forms a group of its own, never concatenated with a neighbour.
The merge pass `mergeGo` is exactly the `'\n'`-join of these groups. -/
theorem merge_correctness_amended :
    (∀ pre post a b, ¬(pyStrip a).isEmpty = true → ¬(pyStrip b).isEmpty = true →
      a.length < 180 → b.length < 180 →
      ¬300 < sumLens (mergeTemp pre ++ [a]) →
      ∃ gs1 g gs2, mergeGroups (pre ++ a :: b :: post) = gs1 ++ g :: gs2 ∧
        ∃ t1 t2, g = t1 ++ a :: b :: t2) ∧
    (∀ frags g, g ∈ mergeGroups frags →
      (∃ x, g = [x]) ∨ ∀ x ∈ g, x.length < 180) ∧
    (∀ frags, mergeGo frags [] = (mergeGroups frags).map joinNL) := by
  refine ⟨fun pre post a b hsa hsb ha hb hsum =>
    merge_pair_together pre post a b hsa hsb ha hb hsum, ?_, ?_⟩
  · intro frags g hg
    exact mergeGroups_small_or_singleton frags [] [] (by simp) (by simp) g hg
  · intro frags
    exact mergeGo_eq_groups frags []

/-- Witness for C4 at a concrete instance. -/
theorem merge_correctness_amended_witness :
    (¬300 < sumLens (mergeTemp [] ++ ["a;".toList])) ∧
      ∃ gs1 g gs2,
        mergeGroups ([] ++ "a;".toList :: "b;".toList :: []) = gs1 ++ g :: gs2 ∧
        ∃ t1 t2, g = t1 ++ "a;".toList :: "b;".toList :: t2 :=
  ⟨by decide, merge_correctness_amended.1 [] [] ("a;".toList) ("b;".toList)
    (by decide) (by decide) (by decide) (by decide) (by decide)⟩

set_option maxRecDepth 4000 in
/-- C4 counterexample: with prior context `c4u1` (length 150) in the
buffer, the adjacent fragments `c4u2` (length 160) and `c4u3` (length 3)
— both under 180, combined length 163 ≤ 300 — end up in different merge
groups and different final blocks. -/
theorem merge_correctness_counterexample :
    dispatchLoop (_regex_chunk_blocks c4input) 1200 = [c4u1, c4u2, c4u3] ∧
      c4u2.length < 180 ∧ c4u3.length < 180 ∧
      c4u2.length + c4u3.length ≤ 300 ∧
      mergeGroups [c4u1, c4u2, c4u3] = [[c4u1, c4u2], [c4u3]] ∧
      split_plsql_into_blocks c4input 1200 = [joinNL [c4u1, c4u2], c4u3] := by
  decide

/-! ## C3 and C8: classifier lemmas -/

theorem pySplitlines_ne_nil (x : List Char) (hx : x ≠ []) : pySplitlines x ≠ [] := by
  rw [pySplitlines.eq_def]
  split
  · simp_all
  · simp
  · simp
  · simp
  · split <;> simp

theorem pySplitlines_cons_other {c : Char} (hn : c ≠ '\n') (hr : c ≠ '\r') (t : List Char) :
    pySplitlines (c :: t) = match pySplitlines t with
      | [] => [[c]]
      | l :: ls => (c :: l) :: ls := by
  rw [pySplitlines.eq_def]
  split
  · next heq => simp at heq
  · next heq => injection heq with h1 h2; exact absurd h1 hn
  · next heq => injection heq with h1 h2; exact absurd h1 hr
  · next heq => injection heq with h1 h2; exact absurd h1 hr
  · next heq =>
    injection heq with h1 h2
    subst h1
    subst h2
    rfl

theorem classifyHeader_mem (h : List Char) : classifyHeader h ∈ allTags := by
  unfold classifyHeader allTags
  repeat' split
  all_goals simp

theorem stripRight_cons (c : Char) (t : List Char) :
    pyStripRight (c :: t) = if pyStripRight t = [] then (if pyIsSpace c then [] else [c])
      else c :: pyStripRight t := by
  unfold pyStripRight
  rw [List.reverse_cons, List.dropWhile_append]
  by_cases h : t.reverse.dropWhile pyIsSpace = []
  · rw [if_pos (by rw [h]; rfl), if_pos (by rw [h]; rfl)]
    by_cases hc : pyIsSpace c
    · rw [if_pos hc]
      simp [List.dropWhile_cons, hc]
    · rw [if_neg hc]
      simp [List.dropWhile_cons, hc]
  · rw [if_neg (by simpa [List.isEmpty_iff] using h), if_neg (by simp [h])]
    simp

theorem stripRight_cons_ne {c : Char} {t : List Char} (h : pyStripRight t ≠ []) :
    pyStripRight (c :: t) = c :: pyStripRight t := by
  rw [stripRight_cons, if_neg h]

theorem stripRight_cons_nonws {c : Char} (hc : ¬pyIsSpace c = true) (t : List Char) :
    pyStripRight (c :: t) = c :: pyStripRight t := by
  rw [stripRight_cons]
  by_cases h : pyStripRight t = []
  · rw [if_pos h, if_neg hc, h]
  · rw [if_neg h]

theorem pyStrip_cons_ws {c : Char} (hc : pyIsSpace c = true) (t : List Char) :
    pyStrip (c :: t) = pyStrip t := by
  unfold pyStrip
  rw [stripRight_cons]
  by_cases h : pyStripRight t = []
  · rw [if_pos h, if_pos hc, h]
  · rw [if_neg h]
    unfold pyStripLeft
    rw [List.dropWhile_cons, if_pos hc]

theorem pyStrip_cons_nonws {c : Char} (hc : ¬pyIsSpace c = true) (t : List Char) :
    pyStrip (c :: t) = c :: pyStripRight t := by
  unfold pyStrip
  rw [stripRight_cons_nonws hc]
  unfold pyStripLeft
  rw [List.dropWhile_cons, if_neg hc]

theorem stripRight_nil_of_all_ws {t : List Char} (h : ∀ x ∈ t, pyIsSpace x = true) :
    pyStripRight t = [] := by
  unfold pyStripRight
  rw [show t.reverse.dropWhile pyIsSpace = [] from
    List.dropWhile_eq_nil_iff.mpr (fun x hx => h x (List.mem_reverse.mp hx))]
  rfl

theorem all_ws_of_stripRight_nil {t : List Char} (h : pyStripRight t = []) :
    ∀ x ∈ t, pyIsSpace x = true := by
  unfold pyStripRight at h
  rw [List.reverse_eq_nil_iff, List.dropWhile_eq_nil_iff] at h
  exact fun x hx => h x (List.mem_reverse.mpr hx)
theorem pySplitlines_r_other {c2 : Char} (h2 : c2 ≠ '\n') (t2 : List Char) :
    pySplitlines ('\r' :: c2 :: t2) = [] :: pySplitlines (c2 :: t2) := by
  rw [pySplitlines.eq_def]
  split
  · next heq => simp at heq
  · next heq => injection heq with h1 _; exact absurd h1 (by decide)
  · next heq =>
    injection heq with _ h2'
    injection h2' with h2'' _
    exact absurd h2'' h2
  · next heq => injection heq with _ h2'; rw [h2']
  · next heq => injection heq with h1 _; exact absurd h1.symm (by assumption)

theorem pySplitlines_r (t : List Char) : ∃ L, pySplitlines ('\r' :: t) = [] :: L := by
  cases t with
  | nil => exact ⟨[], rfl⟩
  | cons c2 t2 =>
    by_cases h2 : c2 = '\n'
    · subst h2
      exact ⟨pySplitlines t2, rfl⟩
    · exact ⟨pySplitlines (c2 :: t2), pySplitlines_r_other h2 t2⟩

theorem headD_pySplitlines : ∀ (y : List Char),
    (pySplitlines y).headD [] = y.takeWhile nbChar := by
  intro y
  induction y with
  | nil => rfl
  | cons c t ih =>
    by_cases hn : c = '\n'
    · subst hn
      rfl
    · by_cases hr : c = '\r'
      · subst hr
        rcases pySplitlines_r t with ⟨L, hL⟩
        rw [hL]
        rfl
      · rw [pySplitlines_cons_other hn hr]
        rw [List.takeWhile_cons,
          if_pos (by simp [nbChar, hn, hr])]
        cases hl : pySplitlines t with
        | nil =>
          have ht : t = [] := by
            by_contra hne
            exact pySplitlines_ne_nil t hne hl
          subst ht
          rfl
        | cons l ls =>
          rw [hl] at ih
          simp only [List.headD_cons] at ih
          rw [ih]
          rfl

theorem pyToUpper_ws {c : Char} (h : pyIsSpace c = true) : pyToUpper c = c := by
  unfold pyIsSpace at h
  simp only [Bool.or_eq_true, beq_iff_eq] at h
  rcases h with ((((h | h) | h) | h) | h) | h <;> (subst h; decide)

theorem nbChar_of_nonws {c : Char} (h : ¬pyIsSpace c = true) : nbChar c = true := by
  unfold nbChar
  simp only [Bool.and_eq_true, Bool.not_eq_true', beq_eq_false_iff_ne]
  constructor <;> (intro he; subst he; exact h (by decide))

theorem ws_of_not_nbChar {c : Char} (h : ¬nbChar c = true) : pyIsSpace c = true := by
  unfold nbChar at h
  simp only [Bool.and_eq_true, Bool.not_eq_true', beq_eq_false_iff_ne, not_and_or] at h
  rcases h with h | h <;> (rw [not_not] at h; subst h; decide)

theorem map_id_on : ∀ {w : List Char}, (∀ c ∈ w, pyToUpper c = c) → w.map pyToUpper = w := by
  intro w
  induction w with
  | nil => intro _; rfl
  | cons c t ih =>
    intro h
    rw [List.map_cons, h c (List.mem_cons_self _ _),
      ih (fun x hx => h x (List.mem_cons_of_mem _ hx))]

theorem getLast?_mem_of_eq : ∀ {l : List Char} {x : Char}, l.getLast? = some x → x ∈ l := by
  intro l x h
  rw [← List.head?_reverse] at h
  exact List.mem_reverse.mp (List.mem_of_mem_head? (by rw [h]; rfl))

theorem isPrefixOf_append_ws {P y w : List Char} {x : Char}
    (hw : ∀ c ∈ w, pyIsSpace c = true)
    (hx : P.getLast? = some x) (hxw : pyIsSpace x = false) :
    (P.isPrefixOf (y ++ w)) = (P.isPrefixOf y) := by
  by_cases hp : P.isPrefixOf y
  · rw [hp]
    rw [List.isPrefixOf_iff_prefix] at hp ⊢
    exact hp.trans (List.prefix_append y w)
  · rw [Bool.eq_false_iff.mpr hp]
    rw [Bool.eq_false_iff]
    intro hcontra
    apply hp
    rw [List.isPrefixOf_iff_prefix] at hcontra ⊢
    by_cases hlen : P.length ≤ y.length
    · exact List.prefix_of_prefix_length_le hcontra (List.prefix_append y w) hlen
    · exfalso
      have hy : y <+: P :=
        List.prefix_of_prefix_length_le (List.prefix_append y w) hcontra
          (Nat.le_of_not_lt fun hc => hlen (Nat.le_of_lt hc))
      rcases hy with ⟨q, hq⟩
      have hqne : q ≠ [] := by
        intro hqnil
        rw [hqnil, List.append_nil] at hq
        exact hlen (hq ▸ Nat.le_refl _)
      have hqw : ∀ c ∈ q, pyIsSpace c = true := by
        rcases hcontra with ⟨r, hr⟩
        rw [← hq, List.append_assoc] at hr
        have := List.append_cancel_left hr
        intro c hc
        exact hw c (this ▸ List.mem_append.mpr (Or.inl hc))
      have hxq : P.getLast? = q.getLast? := by
        rw [← hq]
        cases hqq : q with
        | nil => exact absurd hqq hqne
        | cons q0 qt =>
          rw [List.getLast?_append_of_ne_nil y (show (q0 :: qt : List Char) ≠ [] from by simp)]
      have : pyIsSpace x = true := by
        apply hqw
        apply getLast?_mem_of_eq
        rw [← hxq]
        exact hx
      rw [this] at hxw
      cases hxw

theorem classifyHeader_append_ws {y w : List Char}
    (hw : ∀ c ∈ w, pyIsSpace c = true) :
    classifyHeader (y ++ w) = classifyHeader y := by
  unfold classifyHeader
  rw [isPrefixOf_append_ws hw (show ("CREATE OR REPLACE FUNCTION".toList).getLast? = some 'N' from rfl) (by decide),
    isPrefixOf_append_ws hw (show ("CREATE OR REPLACE PROCEDURE".toList).getLast? = some 'E' from rfl) (by decide),
    isPrefixOf_append_ws hw (show ("CREATE OR REPLACE PACKAGE".toList).getLast? = some 'E' from rfl) (by decide),
    isPrefixOf_append_ws hw (show ("CREATE OR REPLACE TRIGGER".toList).getLast? = some 'R' from rfl) (by decide),
    isPrefixOf_append_ws hw (show ("DECLARE".toList).getLast? = some 'E' from rfl) (by decide),
    isPrefixOf_append_ws hw (show ("BEGIN".toList).getLast? = some 'N' from rfl) (by decide),
    isPrefixOf_append_ws hw (show ("UPDATE".toList).getLast? = some 'E' from rfl) (by decide),
    isPrefixOf_append_ws hw (show ("INSERT".toList).getLast? = some 'T' from rfl) (by decide),
    isPrefixOf_append_ws hw (show ("DELETE".toList).getLast? = some 'E' from rfl) (by decide),
    isPrefixOf_append_ws hw (show ("SELECT".toList).getLast? = some 'T' from rfl) (by decide)]

theorem stripRight_decomp (x : List Char) :
    x = pyStripRight x ++ (x.reverse.takeWhile pyIsSpace).reverse ∧
      ∀ c ∈ (x.reverse.takeWhile pyIsSpace).reverse, pyIsSpace c = true := by
  constructor
  · unfold pyStripRight
    conv_lhs => rw [← List.reverse_reverse x,
      ← List.takeWhile_append_dropWhile pyIsSpace x.reverse]
    rw [List.reverse_append]
  · intro c hc
    exact List.mem_takeWhile_imp (List.mem_reverse.mp hc)

theorem classify_upper_stripRight (x : List Char) :
    classifyHeader ((pyStripRight x).map pyToUpper)
      = classifyHeader (x.map pyToUpper) := by
  rcases stripRight_decomp x with ⟨hx, hw⟩
  conv_rhs => rw [hx]
  rw [List.map_append,
    map_id_on (fun c hc => pyToUpper_ws (hw c hc)),
    classifyHeader_append_ws hw]

theorem stripRight_takeWhile_comm : ∀ (t : List Char),
    pyStripRight ((pyStripRight t).takeWhile nbChar)
      = pyStripRight (t.takeWhile nbChar) := by
  intro t
  induction t with
  | nil => rfl
  | cons c t ih =>
    by_cases hb : nbChar c
    · by_cases hws : pyIsSpace c
      · rw [List.takeWhile_cons, if_pos hb, stripRight_cons c t,
          stripRight_cons c (t.takeWhile nbChar)]
        by_cases h0 : pyStripRight t = []
        · have hts : pyStripRight (t.takeWhile nbChar) = [] :=
            stripRight_nil_of_all_ws (fun x hx =>
              all_ws_of_stripRight_nil h0 x (List.takeWhile_subset _ hx))
          rw [if_pos h0, if_pos hws, if_pos hts]
          rfl
        · rw [if_neg h0, List.takeWhile_cons, if_pos hb,
            stripRight_cons c ((pyStripRight t).takeWhile nbChar), ih]
      · rw [List.takeWhile_cons, if_pos hb,
          stripRight_cons_nonws hws, List.takeWhile_cons, if_pos hb,
          stripRight_cons_nonws hws, stripRight_cons_nonws hws, ih]
    · have hws : pyIsSpace c = true := ws_of_not_nbChar hb
      rw [List.takeWhile_cons, if_neg hb, stripRight_cons c t]
      by_cases h0 : pyStripRight t = []
      · rw [if_pos h0, if_pos hws]
        rfl
      · rw [if_neg h0, List.takeWhile_cons, if_neg hb]

theorem fnbl_cons_n (t : List Char) :
    firstNonBlankLine ('\n' :: t) = firstNonBlankLine t := rfl

theorem fnbl_cons_r (t : List Char) :
    firstNonBlankLine ('\r' :: t) = firstNonBlankLine t := by
  unfold firstNonBlankLine
  cases t with
  | nil => rfl
  | cons c2 t2 =>
    by_cases h2 : c2 = '\n'
    · subst h2
      rfl
    · rw [pySplitlines_r_other h2]
      rfl

theorem fnbl_map_cons_ws {c : Char} (hws : pyIsSpace c = true) (hn : c ≠ '\n')
    (hr : c ≠ '\r') (t : List Char) :
    (firstNonBlankLine (c :: t)).map
        (fun L => classifyHeader ((pyStrip L).map pyToUpper))
      = (firstNonBlankLine t).map
        (fun L => classifyHeader ((pyStrip L).map pyToUpper)) := by
  unfold firstNonBlankLine
  rw [pySplitlines_cons_other hn hr]
  cases hl : pySplitlines t with
  | nil =>
    have ht : t = [] := by
      by_contra hne
      exact pySplitlines_ne_nil t hne hl
    subst ht
    rw [List.find?_cons_of_neg _ (by
      simp only [Bool.not_eq_true', Bool.not_eq_false]
      rw [show pyStrip [c] = pyStrip [] from pyStrip_cons_ws hws []]
      rfl)]
  | cons l ls =>
    have hps : pyStrip (c :: l) = pyStrip l := pyStrip_cons_ws hws l
    by_cases hp : (pyStrip l).isEmpty
    · rw [List.find?_cons_of_neg _ (by simp [hps, hp]),
        List.find?_cons_of_neg _ (by simp [hp])]
    · rw [List.find?_cons_of_pos _ (by simp [hps, hp]),
        List.find?_cons_of_pos _ (by simp [hp])]
      simp only [Option.map_some']
      rw [hps]

theorem get_block_type_spec : ∀ (n : Nat) (x : List Char), x.length ≤ n →
    get_block_type x = (firstNonBlankLine x).map
      (fun L => classifyHeader ((pyStrip L).map pyToUpper)) := by
  intro n
  induction n with
  | zero =>
    intro x hx
    have hxe : x = [] := List.eq_nil_of_length_eq_zero (Nat.le_zero.mp hx)
    subst hxe
    rfl
  | succ n ih =>
    intro x hx
    cases x with
    | nil => rfl
    | cons c t =>
      by_cases hws : pyIsSpace c
      · have hget : get_block_type (c :: t) = get_block_type t := by
          unfold get_block_type
          rw [pyStrip_cons_ws hws]
        have hlen : t.length ≤ n := by simpa using Nat.le_of_succ_le_succ hx
        rw [hget, ih t hlen]
        by_cases hn : c = '\n'
        · subst hn
          rw [fnbl_cons_n]
        · by_cases hr : c = '\r'
          · subst hr
            rw [fnbl_cons_r]
          · exact (fnbl_map_cons_ws hws hn hr t).symm
      · have hnb : nbChar c = true := nbChar_of_nonws hws
        have hn : c ≠ '\n' := fun h => hws (by subst h; decide)
        have hr : c ≠ '\r' := fun h => hws (by subst h; decide)
        have hstrip : pyStrip (c :: t) = c :: pyStripRight t := pyStrip_cons_nonws hws t
        have hget : get_block_type (c :: t)
            = some (classifyHeader
                ((c :: (pyStripRight t).takeWhile nbChar).map pyToUpper)) := by
          unfold get_block_type
          rw [hstrip]
          rcases hl : pySplitlines (c :: pyStripRight t) with _ | ⟨hd, tl⟩
          · exact absurd hl (pySplitlines_ne_nil _ (by simp))
          · have hhd : hd = c :: (pyStripRight t).takeWhile nbChar := by
              have hh := headD_pySplitlines (c :: pyStripRight t)
              rw [hl] at hh
              simp only [List.headD_cons] at hh
              rw [hh, List.takeWhile_cons, if_pos hnb]
            rw [hhd]
        have hspec : firstNonBlankLine (c :: t) = some (c :: t.takeWhile nbChar) := by
          unfold firstNonBlankLine
          rcases hl : pySplitlines (c :: t) with _ | ⟨hd, tl⟩
          · exact absurd hl (pySplitlines_ne_nil _ (by simp))
          · have hhd : hd = c :: t.takeWhile nbChar := by
              have hh := headD_pySplitlines (c :: t)
              rw [hl] at hh
              simp only [List.headD_cons] at hh
              rw [hh, List.takeWhile_cons, if_pos hnb]
            subst hhd
            rw [List.find?_cons_of_pos _ (by
              simp only [Bool.not_eq_true', Bool.not_eq_false]
              rw [pyStrip_cons_nonws hws]
              simp)]
        rw [hget, hspec]
        simp only [Option.map_some']
        congr 1
        rw [pyStrip_cons_nonws hws]
        have e1 : classifyHeader ((c :: (pyStripRight t).takeWhile nbChar).map pyToUpper)
            = classifyHeader
                ((pyStripRight (c :: (pyStripRight t).takeWhile nbChar)).map pyToUpper) :=
          (classify_upper_stripRight _).symm
        rw [e1, stripRight_cons_nonws hws, stripRight_takeWhile_comm]

/-! ## C3: classifier totality and range -/

/-- C3 (amended): on every input with at least one non-whitespace
character, `get_block_type` returns a tag, and the tag is one of the ten
of the source (the anonymous-block tag spelled `ANONYMOUS BLOCK`).  On a
blank input the subscript `[0]` raises `IndexError` (modelled as `none`);
see the counterexample. -/
theorem classifier_range_amended (b : List Char) (h : pyStrip b ≠ []) :
    ∃ t, get_block_type b = some t ∧ t ∈ allTags := by
  unfold get_block_type
  rcases hsp : pySplitlines (pyStrip b) with _ | ⟨hd, tl⟩
  · exact absurd hsp (pySplitlines_ne_nil _ h)
  · exact ⟨classifyHeader (hd.map pyToUpper), rfl, classifyHeader_mem _⟩

/-- Witness for C3 at a concrete input. -/
theorem classifier_range_amended_witness :
    (pyStrip ("BEGIN x".toList) ≠ []) ∧
      ∃ t, get_block_type ("BEGIN x".toList) = some t ∧ t ∈ allTags :=
  ⟨by decide, classifier_range_amended ("BEGIN x".toList) (by decide)⟩

/-- C3 counterexample: on the empty and on a whitespace-only block,
`block.strip().splitlines()[0]` raises `IndexError` instead of returning
a tag, refuting totality on all strings. -/
theorem classifier_range_counterexample :
    get_block_type [] = none ∧ get_block_type ("  \n\t ".toList) = none := by
  decide

/-! ## C8: classification depends only on the first non-blank line -/

/-- C8: `get_block_type` is a function of the block's first non-blank
line alone: blocks with the same first non-blank line classify equally,
so content after that line never affects the result (and the classifier
is a pure function, so repeated calls agree definitionally). -/
theorem classifier_first_line_only (b1 b2 : List Char)
    (h : firstNonBlankLine b1 = firstNonBlankLine b2) :
    get_block_type b1 = get_block_type b2 := by
  rw [get_block_type_spec b1.length b1 (Nat.le_refl _),
    get_block_type_spec b2.length b2 (Nat.le_refl _), h]

/-- Witness for C8: same first non-blank line, different trailing
content, same tag. -/
theorem classifier_first_line_only_witness :
    (firstNonBlankLine ("  \nBEGIN x".toList)
      = firstNonBlankLine ("BEGIN x\nSELECT 1;".toList)) ∧
      get_block_type ("  \nBEGIN x".toList)
        = get_block_type ("BEGIN x\nSELECT 1;".toList) :=
  ⟨by decide,
    classifier_first_line_only ("  \nBEGIN x".toList)
      ("BEGIN x\nSELECT 1;".toList) (by decide)⟩

/-! ## C5: stray script separator -/

/-- C5 (amended): no unit of `_regex_chunk_blocks` is ever the bare `/`;
a lone `/` after the input's final `;` is discarded entirely, and on the
spec's example the pipeline yields exactly one block — the procedure text
without the trailing `/` — tagged PROCEDURE.  (A lone `/` between two
units that is followed by a later `;` is instead absorbed into the start
of the following unit; see the counterexample.) -/
theorem stray_separator_amended :
    (∀ cs u, u ∈ _regex_chunk_blocks cs → u ≠ ['/']) ∧
      split_plsql_into_blocks c5input 1200 = [c5proc] ∧
      get_block_type c5proc = some ("PROCEDURE".toList) := by
  refine ⟨?_, by decide, by decide⟩
  intro cs u hu
  unfold _regex_chunk_blocks at hu
  rcases List.mem_filterMap.mp hu with ⟨m, _, hmu⟩
  by_cases hcond : pyStrip m = [] ∨ pyStrip m = ['/']
  · rw [if_pos hcond] at hmu
    cases hmu
  · rw [if_neg hcond] at hmu
    injection hmu with hmu
    subst hmu
    exact (not_or.mp hcond).2

/-- Witness for C5 at a concrete unit. -/
theorem stray_separator_amended_witness :
    ("a;".toList ∈ _regex_chunk_blocks ("a;".toList)) ∧ "a;".toList ≠ ['/'] :=
  ⟨by decide, stray_separator_amended.1 ("a;".toList) ("a;".toList) (by decide)⟩

/-- C5 counterexample: in `a;\n/\nb;` the lone `/` sits between two
units, yet it is not dropped — it is absorbed into the second unit, so
the claim that such a `/` appears in no unit is false. -/
theorem stray_separator_counterexample :
    _regex_chunk_blocks c5sep = ["a;".toList, "/\nb;".toList] ∧
      '/' ∈ "/\nb;".toList := by
  decide

end PlsqlSeg
